import Mathlib

/-!
Shallow embedding of the patch engine (`src/unnamed/part_000`, i.e. the
patch parsing/application module) and of the cosine-similarity scorer of the
semantic module (`src/unnamed/part_002`), together with proofs checking the
natural-language specification against the code.

JavaScript strings are modelled by Lean `String`; the string primitives used
by the code (`split`, `startsWith`, `trim`, `substring`, `join`) are given
structurally recursive definitions over `String.data` so that every
definition evaluates inside the kernel.
-/

namespace Chatify

/-- The newline character, i.e. `"\n"` as a `Char`. -/
def nlChar : Char := Char.ofNat 10

/-- Auxiliary splitter: cut a character list at every occurrence of `sep`,
mirroring JavaScript `String.prototype.split` with a single-character
separator (so `""` splits to `[""]` and a trailing separator yields a
trailing `""`). -/
def splitOnCharAux (sep : Char) : List Char → List Char → List String
  | [], acc => [String.mk acc.reverse]
  | c :: rest, acc =>
    if c = sep then String.mk acc.reverse :: splitOnCharAux sep rest []
    else splitOnCharAux sep rest (c :: acc)

/-- JavaScript `s.split(sep)` for a one-character separator. -/
def splitOnChar (sep : Char) (s : String) : List String :=
  splitOnCharAux sep s.data []

/-- JavaScript `s.split("\n")`, used by `parsePatch` and `deriveNewContents`. -/
def splitLines (s : String) : List String :=
  splitOnChar nlChar s

/-- JavaScript `lines.join("\n")`. -/
def joinLines : List String → String
  | [] => ""
  | [l] => l
  | l :: rest => l ++ "\n" ++ joinLines rest

/-- JavaScript `s.startsWith(pre)`. -/
def strStartsWith (s pre : String) : Bool :=
  pre.data.isPrefixOf s.data

/-- Whitespace test for `trim` (space, tab, newline, carriage return). -/
def isWsChar (c : Char) : Bool :=
  c = Char.ofNat 32 || c = Char.ofNat 9 || c = Char.ofNat 10 || c = Char.ofNat 13

/-- JavaScript `s.trim()`. -/
def strTrim (s : String) : String :=
  String.mk (((s.data.dropWhile isWsChar).reverse.dropWhile isWsChar).reverse)

/-- JavaScript `s.substring(n)`: drop the first `n` characters. -/
def strDrop (s : String) (n : Nat) : String :=
  String.mk (s.data.drop n)

/-- `true` when the string's last character is a newline
(JavaScript `content.endsWith("\n")`). -/
def endsWithNL (s : String) : Bool :=
  s.data.getLast? == some nlChar

/-- The string ends with exactly one trailing newline: it ends with `"\n"`
and the text before that final newline does not itself end with `"\n"`.
This is the spec's "exactly one trailing newline" notion. -/
def endsWithOneNL (s : String) : Bool :=
  endsWithNL s && !(endsWithNL (String.mk s.data.dropLast))

/-- JavaScript `content.slice(0, -1)`: drop the last character. -/
def strDropLast (s : String) : String :=
  String.mk s.data.dropLast

/-- The `UpdateChunk` record of the patch module: expected old lines, the
replacement lines, an optional `@@` context line, and the end-of-file flag.
The TypeScript optional fields `change_context?: string` and
`is_end_of_file?: boolean` are modelled by `Option String` (with `some ""`
possible) and `Bool` (with `false` for absent/undefined). -/
structure UpdateChunk where
  old_lines : List String
  new_lines : List String
  change_context : Option String := none
  is_end_of_file : Bool := false
deriving DecidableEq, Repr

/-- JavaScript truthiness of an optional string field: `undefined` and the
empty string are falsy, any other string is truthy.  This is the test
performed by `if (chunk.change_context)` and `if (hunk.move_path)`. -/
def optTruthy : Option String → Bool
  | none => false
  | some s => s != ""

/-! ## Sequence matcher (`seekSequence`) -/

/-- The pattern occurs at index `i` of `lines`: the slice of `lines` of the
pattern's length starting at `i` is the pattern itself.  (Equality of the
slice already forces `i + pattern.length ≤ lines.length`.) -/
def occursAt (lines pattern : List String) (i : Nat) : Prop :=
  (lines.drop i).take pattern.length = pattern

instance (lines pattern : List String) (i : Nat) :
    Decidable (occursAt lines pattern i) := by
  unfold occursAt; infer_instance

/-- The inner matching loop of `seekSequence`: element-wise comparison of
`pattern` against `lines` starting at index `i`. -/
def matchSeqAt (lines pattern : List String) (i : Nat) : Bool :=
  (lines.drop i).take pattern.length == pattern

/-- The search loop of `seekSequence`: try indices `i, i+1, ...` while
`i ≤ lines.length - pattern.length`, returning the first full match or
`-1`.  The loop is realized by structural recursion on a fuel argument
initialized to the loop's iteration bound `lines.length + 1 - i` (the fuel
can run out only once the loop guard is already false). -/
def seekFromGo (lines pattern : List String) : Nat → Nat → Int
  | 0, _ => -1
  | fuel + 1, i =>
    if i + pattern.length ≤ lines.length then
      if matchSeqAt lines pattern i then (i : Int)
      else seekFromGo lines pattern fuel (i + 1)
    else -1

/-- The search loop of `seekSequence` starting at index `i`. -/
def seekFrom (lines pattern : List String) (i : Nat) : Int :=
  seekFromGo lines pattern (lines.length + 1 - i) i

/-- `seekSequence(lines, pattern, startIndex)` from the patch module:
`-1` for an empty pattern, otherwise the first index `≥ startIndex` where
the full pattern matches, or `-1` if there is none. -/
def seekSequence (lines pattern : List String) (startIndex : Nat) : Int :=
  if pattern.isEmpty then -1
  else seekFrom lines pattern startIndex

/-! ## Replacement computation (`computeReplacements`) -/

/-- A replacement `(start_index, length, new_lines)` emitted by
`computeReplacements`. -/
abbrev Replacement := Nat × Nat × List String

/-- The old-lines-matching second half of one chunk-loop iteration: search
`old_lines` from the cursor; if not found and the pattern ends with an empty
line, retry with that trailing empty element trimmed from the pattern (and
from `new_lines` when it also ends empty); on success emit
`(foundIndex, pattern.length, newSlice)` and advance the cursor past the
match, otherwise fail. -/
def matchStep (originalLines : List String) (filePath : String)
    (chunk : UpdateChunk) (lineIndex1 : Nat) :
    Except String (Replacement × Nat) :=
  let pattern := chunk.old_lines
  let found := seekSequence originalLines pattern lineIndex1
  let retried : List String × List String × Int :=
    if found = -1 ∧ pattern.getLast? = some "" then
      let pattern2 := pattern.dropLast
      let newSlice2 :=
        if chunk.new_lines.getLast? = some "" then chunk.new_lines.dropLast
        else chunk.new_lines
      (pattern2, newSlice2, seekSequence originalLines pattern2 lineIndex1)
    else (pattern, chunk.new_lines, found)
  match retried with
  | (pattern2, newSlice2, found2) =>
    if found2 = -1 then
      Except.error ("Failed to find expected lines in " ++ filePath ++ ":\n"
        ++ joinLines chunk.old_lines)
    else
      Except.ok ((found2.toNat, pattern2.length, newSlice2),
        found2.toNat + pattern2.length)

/-- One iteration of the chunk loop of `computeReplacements`: locate the
optional context line from the cursor (`if (chunk.change_context) { ... }`),
then emit the single replacement this chunk produces (insertion at context,
append at end of file, or an old-lines match via `matchStep`), together with
the updated cursor, or fail as the loop throws. -/
def chunkStep (originalLines : List String) (filePath : String)
    (chunk : UpdateChunk) (lineIndex : Nat) :
    Except String (Replacement × Nat) :=
  let ctxStep : Except String (Option Nat × Nat) :=
    if optTruthy chunk.change_context then
      let c := chunk.change_context.getD ""
      let idx := seekSequence originalLines [c] lineIndex
      if idx = -1 then
        Except.error ("Failed to find context '" ++ c ++ "' in " ++ filePath)
      else Except.ok (some idx.toNat, idx.toNat)
    else Except.ok (none, lineIndex)
  match ctxStep with
  | Except.error e => Except.error e
  | Except.ok (ctxIdx, lineIndex1) =>
    if chunk.old_lines.isEmpty then
      -- insertion: replace the context line, or append at end of file
      match ctxIdx with
      | some k => Except.ok ((k, 1, chunk.new_lines), lineIndex1)
      | none => Except.ok ((originalLines.length, 0, chunk.new_lines), lineIndex1)
    else matchStep originalLines filePath chunk lineIndex1

/-- The chunk loop of `computeReplacements`, carrying the forward cursor
`lineIndex` and collecting the emitted replacements in emission order. -/
def computeReplsGo (originalLines : List String) (filePath : String) :
    List UpdateChunk → Nat → Except String (List Replacement)
  | [], _ => Except.ok []
  | chunk :: rest, lineIndex =>
    match chunkStep originalLines filePath chunk lineIndex with
    | Except.error e => Except.error e
    | Except.ok (r, lineIndex') =>
      (computeReplsGo originalLines filePath rest lineIndex').map (fun rs => r :: rs)

/-- `computeReplacements(originalLines, filePath, chunks)`: run the per-chunk
loop from cursor `0`, then sort the emitted replacements ascending by start
index.  JavaScript's `Array.prototype.sort` with comparator `a[0] - b[0]` is
a stable sort by start index, which `List.insertionSort` with `≤` on the
first component realizes exactly. -/
def computeReplacements (originalLines : List String) (filePath : String)
    (chunks : List UpdateChunk) : Except String (List Replacement) :=
  (computeReplsGo originalLines filePath chunks 0).map
    (List.insertionSort (fun a b => a.1 ≤ b.1))

/-! ## Replacement application and content derivation -/

/-- One splice step of `applyReplacements`: remove `l` elements at index `s`
(clamped to the array length, as `Array.prototype.splice` clamps its start
argument) and insert `seg` there. -/
def spliceAt (lines : List String) (s l : Nat) (seg : List String) : List String :=
  let s' := min s lines.length
  lines.take s' ++ seg ++ lines.drop (s' + l)

/-- `applyReplacements(lines, replacements)`: apply the replacements from the
last to the first, so earlier indices stay valid. -/
def applyReplacements (lines : List String) (repls : List Replacement) : List String :=
  repls.foldr (fun r acc => spliceAt acc r.1 r.2.1 r.2.2) lines

/-- Drop one trailing empty line after splitting, mirroring
`if (originalLines.length > 0 && last === "") originalLines.pop()`. -/
def dropTrailingEmpty (lines : List String) : List String :=
  if lines.getLast? == some "" then lines.dropLast else lines

/-- Ensure the derived line array ends with an empty line, mirroring
`if (newLines.length === 0 || last !== "") newLines.push("")`. -/
def normalizeEnd (newLines : List String) : List String :=
  if newLines.isEmpty || newLines.getLast? != some "" then newLines ++ [""]
  else newLines

/-- `deriveNewContents`, with the file read abstracted: the original file
content is passed in instead of being read from disk.  Splits into lines,
drops one trailing empty line, computes and applies the replacements, and
joins with a guaranteed trailing empty line. -/
def deriveNewContents (originalContent : String) (filePath : String)
    (chunks : List UpdateChunk) : Except String String :=
  let originalLines := dropTrailingEmpty (splitLines originalContent)
  (computeReplacements originalLines filePath chunks).map
    (fun repls => joinLines (normalizeEnd (applyReplacements originalLines repls)))

/-- The trailing-newline normalization that `deriveNewContents` performs on
content even when no replacement changes any line. -/
def normalizeContent (content : String) : String :=
  joinLines (normalizeEnd (dropTrailingEmpty (splitLines content)))

/-! ## Patch parsing -/

/-- The body loop of `parseUpdateChunks`: consume change lines until the next
`@@` or `***` line, classifying by first character (space → both sides,
`-` → old only, `+` → new only, others skipped).  The source also checks for
the literal line `*** End of File` inside the loop body; that check is kept
here exactly as written (it can only be reached if the line does not start
with `***`).  Returns `(old_lines, new_lines, is_end_of_file, consumed)`
where `consumed` is the number of lines eaten. -/
def parseChunkBodyGo (lines : List String) : Nat → Nat →
    List String × List String × Bool × Nat
  | 0, _ => ([], [], false, 0)
  | fuel + 1, i =>
    if i < lines.length then
      let line := lines.getD i ""
      if strStartsWith line "@@" || strStartsWith line "***" then ([], [], false, 0)
      else if line == "*** End of File" then ([], [], true, 1)
      else
        let rest := parseChunkBodyGo lines fuel (i + 1)
        let content := strDrop line 1
        if strStartsWith line " " then
          (content :: rest.1, content :: rest.2.1, rest.2.2.1, rest.2.2.2 + 1)
        else if strStartsWith line "-" then
          (content :: rest.1, rest.2.1, rest.2.2.1, rest.2.2.2 + 1)
        else if strStartsWith line "+" then
          (rest.1, content :: rest.2.1, rest.2.2.1, rest.2.2.2 + 1)
        else
          (rest.1, rest.2.1, rest.2.2.1, rest.2.2.2 + 1)
    else ([], [], false, 0)

/-- Chunk-body parsing starting at line `i` (fuel initialized to the
remaining line count, which bounds the loop's iterations). -/
def parseChunkBody (lines : List String) (i : Nat) :
    List String × List String × Bool × Nat :=
  parseChunkBodyGo lines (lines.length - i) i

/-- The outer loop of `parseUpdateChunks`: scan until the next `***` line,
opening a new chunk at each `@@` line whose remainder (trimmed) is the
change context (the empty remainder is stored as `undefined`, i.e. `none`).
Returns the chunks and the number of lines consumed. -/
def parseUpdateChunksLoop (lines : List String) : Nat → Nat → List UpdateChunk × Nat
  | 0, _ => ([], 0)
  | fuel + 1, i =>
    if i < lines.length ∧ ¬ strStartsWith (lines.getD i "") "***" then
      if strStartsWith (lines.getD i "") "@@" then
        let contextLine := strTrim (strDrop (lines.getD i "") 2)
        let body := parseChunkBody lines (i + 1)
        let chunk : UpdateChunk :=
          { old_lines := body.1
            new_lines := body.2.1
            change_context := if contextLine == "" then none else some contextLine
            is_end_of_file := body.2.2.1 }
        let rest := parseUpdateChunksLoop lines fuel (i + 1 + body.2.2.2)
        (chunk :: rest.1, 1 + body.2.2.2 + rest.2)
      else
        let rest := parseUpdateChunksLoop lines fuel (i + 1)
        (rest.1, 1 + rest.2)
    else ([], 0)

/-- Chunk scanning for one update hunk, starting at line `i`. -/
def parseUpdateChunksGo (lines : List String) (i : Nat) : List UpdateChunk × Nat :=
  parseUpdateChunksLoop lines (lines.length - i) i

/-- The content loop of `parseAddContent`: every `+`-prefixed line until the
next `***` line contributes its remainder plus a newline.  Returns the
accumulated content and the number of lines consumed. -/
def parseAddLinesGo (lines : List String) : Nat → Nat → String × Nat
  | 0, _ => ("", 0)
  | fuel + 1, i =>
    if i < lines.length ∧ ¬ strStartsWith (lines.getD i "") "***" then
      let line := lines.getD i ""
      let rest := parseAddLinesGo lines fuel (i + 1)
      (if strStartsWith line "+" then strDrop line 1 ++ "\n" ++ rest.1 else rest.1,
       rest.2 + 1)
    else ("", 0)

/-- Add-content scanning starting at line `i`. -/
def parseAddLines (lines : List String) (i : Nat) : String × Nat :=
  parseAddLinesGo lines (lines.length - i) i

/-- `parseAddContent`: accumulate the `+` lines and drop one trailing
newline from the final join, mirroring
`if (content.endsWith("\n")) content = content.slice(0, -1)`. -/
def parseAddContent (lines : List String) (i : Nat) : String × Nat :=
  let r := parseAddLines lines i
  (if endsWithNL r.1 then strDropLast r.1 else r.1, r.2)

/-- The argument after the first colon of a header line:
`line.split(":", 2)[1]?.trim()` followed by the JavaScript truthiness test
on the result (`undefined` and `""` both reject the header). -/
def colonArg (line : String) : Option String :=
  match (splitOnChar (Char.ofNat 58) line).get? 1 with
  | some s => let t := strTrim s; if t == "" then none else some t
  | none => none

/-- A recognized hunk header: the file path, the optional `*** Move to:`
target of an update header, and how many extra lines (0 or 1) the move
line consumed, so that `nextIdx = idx + 1 + moveSkip`. -/
structure PatchHeader where
  filePath : String
  movePath : Option String := none
  moveSkip : Nat := 0
deriving DecidableEq, Repr

/-- `parsePatchHeader(lines, idx)`: recognize one of the three hunk headers
at line `idx`.  Unlike the path, the move target is not truthiness-checked
in the source, so it is stored exactly as `split(":", 2)[1]?.trim()`
produces it. -/
def parsePatchHeader (lines : List String) (idx : Nat) : Option PatchHeader :=
  let line := lines.getD idx ""
  if strStartsWith line "*** Add File:" then
    (colonArg line).map (fun fp => { filePath := fp })
  else if strStartsWith line "*** Delete File:" then
    (colonArg line).map (fun fp => { filePath := fp })
  else if strStartsWith line "*** Update File:" then
    let withMove :=
      idx + 1 < lines.length ∧ strStartsWith (lines.getD (idx + 1) "") "*** Move to:"
    if withMove then
      let movePath :=
        ((splitOnChar (Char.ofNat 58) (lines.getD (idx + 1) "")).get? 1).map strTrim
      (colonArg line).map (fun fp => { filePath := fp, movePath := movePath, moveSkip := 1 })
    else
      (colonArg line).map (fun fp => { filePath := fp })
  else none

/-- The hunk sum type: `AddHunk`, `DeleteHunk`, `UpdateHunk`. -/
inductive Hunk where
  | add (path : String) (contents : String)
  | delete (path : String)
  | update (path : String) (move_path : Option String) (chunks : List UpdateChunk)
deriving DecidableEq, Repr

/-- The hunk-scanning loop of `parsePatch` between the Begin and End marker
lines. -/
def parseHunksLoop (lines : List String) (endIdx : Nat) : Nat → Nat → List Hunk
  | 0, _ => []
  | fuel + 1, i =>
    if i < endIdx then
      match parsePatchHeader lines i with
      | none => parseHunksLoop lines endIdx fuel (i + 1)
      | some header =>
        let line := lines.getD i ""
        let nextIdx := i + 1 + header.moveSkip
        if strStartsWith line "*** Add File:" then
          let r := parseAddContent lines nextIdx
          Hunk.add header.filePath r.1 :: parseHunksLoop lines endIdx fuel (nextIdx + r.2)
        else if strStartsWith line "*** Delete File:" then
          Hunk.delete header.filePath :: parseHunksLoop lines endIdx fuel nextIdx
        else if strStartsWith line "*** Update File:" then
          let r := parseUpdateChunksGo lines nextIdx
          Hunk.update header.filePath header.movePath r.1
            :: parseHunksLoop lines endIdx fuel (nextIdx + r.2)
        else parseHunksLoop lines endIdx fuel (i + 1)
    else []

/-- Hunk scanning starting at line `i`, bounded by the End-marker index. -/
def parseHunksGo (lines : List String) (endIdx : Nat) (i : Nat) : List Hunk :=
  parseHunksLoop lines endIdx (endIdx - i) i

/-- The index of the first line whose trimmed text equals `marker`, as an
`Int` with `-1` for "not found" (JavaScript `Array.prototype.findIndex`). -/
def findMarkerIdx (lines : List String) (marker : String) : Int :=
  match lines.findIdx? (fun line => strTrim line == marker) with
  | some i => (i : Int)
  | none => -1

/-- `parsePatch(patchText)`: locate the `*** Begin Patch` / `*** End Patch`
markers (first occurrence each, trimmed equality), fail when one is missing
or Begin is at or after End, and otherwise scan the hunks strictly between
them. -/
def parsePatch (patchText : String) : Except String (List Hunk) :=
  let lines := splitLines patchText
  let beginIdx := findMarkerIdx lines "*** Begin Patch"
  let endIdx := findMarkerIdx lines "*** End Patch"
  if beginIdx = -1 ∨ endIdx = -1 ∨ beginIdx ≥ endIdx then
    Except.error "Invalid patch format: missing Begin/End markers"
  else
    Except.ok (parseHunksGo lines endIdx.toNat (beginIdx.toNat + 1))

/-! ## File mutation (`applyHunksToFiles`) -/

/-- The filesystem, modelled as an association list from paths to file
contents (directory creation is a no-op in the model). -/
def Fs := List (String × String)

/-- Read a file: `some` contents or `none` when the path does not exist. -/
def Fs.read (fs : Fs) (p : String) : Option String :=
  match fs with
  | [] => none
  | (q, c) :: rest => if q = p then some c else Fs.read rest p

/-- Write (create or overwrite) a file. -/
def Fs.write (fs : Fs) (p : String) (c : String) : Fs :=
  match fs with
  | [] => [(p, c)]
  | (q, d) :: rest => if q = p then (p, c) :: rest else (q, d) :: Fs.write rest p c

/-- Remove a file (`fs.unlink`); the caller checks existence. -/
def Fs.remove (fs : Fs) (p : String) : Fs :=
  match fs with
  | [] => []
  | (q, d) :: rest => if q = p then rest else (q, d) :: Fs.remove rest p

/-- The affected-path accumulator returned by `applyHunksToFiles`. -/
structure AffectedPaths where
  added : List String := []
  modified : List String := []
  deleted : List String := []
deriving DecidableEq, Repr

/-- One iteration of the hunk loop of `applyHunksToFiles`: apply a single
hunk to the filesystem and extend the affected-path lists, or fail.  `add`
writes the stored contents verbatim; `delete` unlinks (error when the path
is absent, as `fs.unlink` raises `ENOENT`); `update` reads the current
content, derives the new content, and either overwrites in place or writes
to the move target and unlinks the original (the move target is
truthiness-tested, as in `if (hunk.move_path)`). -/
def applyHunkAcc (fs : Fs) (ap : AffectedPaths) :
    Hunk → Except String (Fs × AffectedPaths)
  | Hunk.add p contents =>
    Except.ok (fs.write p contents, { ap with added := ap.added ++ [p] })
  | Hunk.delete p =>
    match fs.read p with
    | none => Except.error "ENOENT"
    | some _ => Except.ok (fs.remove p, { ap with deleted := ap.deleted ++ [p] })
  | Hunk.update p movePath chunks =>
    match fs.read p with
    | none => Except.error "ENOENT"
    | some content =>
      match deriveNewContents content p chunks with
      | Except.error e => Except.error e
      | Except.ok newContent =>
        if optTruthy movePath then
          let mp := movePath.getD ""
          Except.ok (((fs.write mp newContent).remove p),
            { ap with modified := ap.modified ++ [mp] })
        else
          Except.ok (fs.write p newContent,
            { ap with modified := ap.modified ++ [p] })

/-- The hunk loop: apply hunks strictly in order; on the first failure stop,
keeping the filesystem state reached so far and reporting the error.  The
third component is `none` on success and `some errorMessage` on failure. -/
def runHunks (fs : Fs) (ap : AffectedPaths) :
    List Hunk → Fs × AffectedPaths × Option String
  | [] => (fs, ap, none)
  | h :: rest =>
    match applyHunkAcc fs ap h with
    | Except.ok (fs', ap') => runHunks fs' ap' rest
    | Except.error e => (fs, ap, some e)

/-- `applyHunksToFiles(hunks)` over the modelled filesystem: reject an empty
hunk list, otherwise run the hunks in order.  The returned filesystem is the
state actually reached (committed effects survive a failure; there is no
rollback). -/
def applyHunksToFiles (fs : Fs) (hunks : List Hunk) :
    Fs × AffectedPaths × Option String :=
  if hunks.isEmpty then (fs, {}, some "No files were modified.")
  else runHunks fs {} hunks

/-! ## Cosine similarity (`src/unnamed/part_002`) -/

/-- The accumulation loop of `cosineSimilarity`: one step per index
`i < a.length`, accumulating `(dot, normA, normB)`.  IEEE-754 doubles are
modelled by exact rationals; the loop index over `a` is realized by
structural recursion on `a` while `b` is consumed in step.  (When `b` is
shorter than `a` the JavaScript code reads `undefined` and poisons the sums
with NaN; the model reads `0` instead, so theorems about it assume
`a.length ≤ b.length`.) -/
def cosineAccumGo : List ℚ → List ℚ → ℚ × ℚ × ℚ → ℚ × ℚ × ℚ
  | [], _, acc => acc
  | av :: arest, bs, acc =>
    let bv := bs.headD 0
    cosineAccumGo arest bs.tail
      (acc.1 + av * bv, acc.2.1 + av * av, acc.2.2 + bv * bv)

/-- `cosineSimilarity(a, b)`: accumulate dot product and squared norms, then
return `0` when either accumulated norm is zero, else divide the dot product
by the product of the square roots of the norms.  `Math.sqrt` has no exact
rational counterpart, so it is abstracted as a function parameter; the
claims proved below require of it only that it does not vanish on positive
inputs, which holds of IEEE-754 square root. -/
def cosineSimilarity (sqrt : ℚ → ℚ) (a b : List ℚ) : ℚ :=
  let acc := cosineAccumGo a b (0, 0, 0)
  if acc.2.1 = 0 ∨ acc.2.2 = 0 then 0
  else acc.1 / (sqrt acc.2.1 * sqrt acc.2.2)

/-- Forward chaining of positive-length spans, in emission order. -/
def spanChain (r r' : Replacement) : Prop :=
  0 < r.2.1 → 0 < r'.2.1 → r.1 + r.2.1 ≤ r'.1

/-- Symmetric disjointness of positive-length spans. -/
def spanDisjoint (r r' : Replacement) : Prop :=
  0 < r.2.1 → 0 < r'.2.1 → (r.1 + r.2.1 ≤ r'.1 ∨ r'.1 + r'.2.1 ≤ r.1)

/-- The non-overlap property claimed of the emitted replacements: for any
two distinct entries `(s1, l1, _)` and `(s2, l2, _)` with `s1 ≤ s2`, the
first span ends at or before the second begins. -/
def nonOverlap (rs : List Replacement) : Prop :=
  ∀ (i j : Fin rs.length), i ≠ j → (rs.get i).1 ≤ (rs.get j).1 →
    (rs.get i).1 + (rs.get i).2.1 ≤ (rs.get j).1

instance (rs : List Replacement) : Decidable (nonOverlap rs) := by
  unfold nonOverlap; infer_instance

/-! ## Lemmas about the sequence matcher -/

theorem matchSeqAt_iff_occursAt (lines pattern : List String) (i : Nat) :
    matchSeqAt lines pattern i = true ↔ occursAt lines pattern i := by
  simp [matchSeqAt, occursAt]

theorem occursAt_bound {lines pattern : List String} {i : Nat}
    (hne : pattern ≠ []) (h : occursAt lines pattern i) :
    i + pattern.length ≤ lines.length := by
  unfold occursAt at h
  have hlen := congrArg List.length h
  rw [List.length_take, List.length_drop] at hlen
  have hp : 0 < pattern.length := List.length_pos.mpr hne
  omega

theorem seekFromGo_fuel (lines pattern : List String) :
    ∀ (fuel i : Nat), lines.length + 1 - i ≤ fuel →
      (∀ k : Nat, seekFromGo lines pattern fuel i = (k : Int) →
        i ≤ k ∧ k + pattern.length ≤ lines.length ∧ occursAt lines pattern k ∧
          ∀ j, i ≤ j → j < k → ¬ occursAt lines pattern j) ∧
      (seekFromGo lines pattern fuel i = -1 → pattern ≠ [] →
        ∀ j, i ≤ j → ¬ occursAt lines pattern j) ∧
      (seekFromGo lines pattern fuel i = -1 ∨
        ∃ k : Nat, seekFromGo lines pattern fuel i = (k : Int)) := by
  intro fuel
  induction fuel with
  | zero =>
    intro i hi
    refine ⟨?_, ?_, Or.inl rfl⟩
    · intro k hk; exact absurd hk (by simp [seekFromGo])
    · intro _ hne j hij hocc
      have := occursAt_bound hne hocc
      omega
  | succ fuel ih =>
    intro i hi
    show _ ∧ _ ∧ (seekFromGo lines pattern (fuel + 1) i = -1 ∨ _)
    rw [seekFromGo]
    by_cases hguard : i + pattern.length ≤ lines.length
    · rw [if_pos hguard]
      by_cases hm : matchSeqAt lines pattern i
      · rw [if_pos hm]
        refine ⟨?_, ?_, Or.inr ⟨i, rfl⟩⟩
        · intro k hk
          have hik : i = k := by exact_mod_cast hk
          subst hik
          exact ⟨le_refl i, hguard, (matchSeqAt_iff_occursAt _ _ _).mp hm, by omega⟩
        · intro hk; exact absurd hk (by omega)
      · rw [if_neg hm]
        obtain ⟨ih1, ih2, ih3⟩ := ih (i + 1) (by omega)
        refine ⟨?_, ?_, ih3⟩
        · intro k hk
          obtain ⟨h1, h2, h3, h4⟩ := ih1 k hk
          refine ⟨by omega, h2, h3, ?_⟩
          intro j hij hjk hocc
          rcases Nat.eq_or_lt_of_le hij with rfl | hij'
          · exact hm ((matchSeqAt_iff_occursAt _ _ _).mpr hocc)
          · exact h4 j hij' hjk hocc
        · intro hk hne j hij hocc
          rcases Nat.eq_or_lt_of_le hij with rfl | hij'
          · exact hm ((matchSeqAt_iff_occursAt _ _ _).mpr hocc)
          · exact ih2 hk hne j hij' hocc
    · rw [if_neg hguard]
      refine ⟨?_, ?_, Or.inl rfl⟩
      · intro k hk; exact absurd hk (by omega)
      · intro _ hne j hij hocc
        have := occursAt_bound hne hocc
        omega

theorem seekFrom_eq_coe {lines pattern : List String} {i k : Nat}
    (hk : seekFrom lines pattern i = (k : Int)) :
    i ≤ k ∧ k + pattern.length ≤ lines.length ∧ occursAt lines pattern k ∧
      ∀ j, i ≤ j → j < k → ¬ occursAt lines pattern j :=
  (seekFromGo_fuel lines pattern _ i (le_refl _)).1 k hk

theorem seekFrom_eq_neg {lines pattern : List String} {i : Nat} (hne : pattern ≠ [])
    (h : seekFrom lines pattern i = -1) :
    ∀ j, i ≤ j → ¬ occursAt lines pattern j :=
  (seekFromGo_fuel lines pattern _ i (le_refl _)).2.1 h hne

theorem seekFrom_cases (lines pattern : List String) (i : Nat) :
    seekFrom lines pattern i = -1 ∨
      ∃ k : Nat, seekFrom lines pattern i = (k : Int) :=
  (seekFromGo_fuel lines pattern _ i (le_refl _)).2.2

/-- Case analysis of the value of `seekSequence`: either not-found, or a
lowest full-match index at or after the start. -/
theorem seekSequence_cases (lines pattern : List String) (start : Nat) :
    seekSequence lines pattern start = -1 ∨
      ∃ k : Nat, seekSequence lines pattern start = (k : Int) ∧ start ≤ k ∧
        k + pattern.length ≤ lines.length ∧ occursAt lines pattern k := by
  unfold seekSequence
  by_cases hp : pattern.isEmpty
  · rw [if_pos hp]; exact Or.inl rfl
  · rw [if_neg hp]
    rcases seekFrom_cases lines pattern start with h | ⟨k, hk⟩
    · exact Or.inl h
    · obtain ⟨h1, h2, h3, _⟩ := seekFrom_eq_coe hk
      exact Or.inr ⟨k, hk, h1, h2, h3⟩

theorem seekSequence_ne_neg {lines pattern : List String} {start : Nat}
    (h : seekSequence lines pattern start ≠ -1) :
    pattern ≠ [] ∧
      ∃ k : Nat, seekSequence lines pattern start = (k : Int) ∧ start ≤ k ∧
        k + pattern.length ≤ lines.length ∧ occursAt lines pattern k ∧
        (seekSequence lines pattern start).toNat = k := by
  rcases seekSequence_cases lines pattern start with hc | ⟨k, hk, h1, h2, h3⟩
  · exact absurd hc h
  · refine ⟨?_, k, hk, h1, h2, h3, by rw [hk]; exact Int.toNat_natCast k⟩
    intro hpat
    rw [hpat] at hk
    simp [seekSequence] at hk

/-! ## Lemmas about the replacement computation -/

/-- Everything the downstream proofs need to know about a successful
old-lines match step. -/
theorem matchStep_ok {lines : List String} {fp : String} {chunk : UpdateChunk}
    {idx1 : Nat} {r : Replacement} {idx' : Nat}
    (h : matchStep lines fp chunk idx1 = Except.ok (r, idx')) :
    idx1 ≤ r.1 ∧ 0 < r.2.1 ∧ r.1 + r.2.1 = idx' ∧ r.1 + r.2.1 ≤ lines.length ∧
      (chunk.old_lines = chunk.new_lines → (lines.drop r.1).take r.2.1 = r.2.2) := by
  simp only [matchStep] at h
  by_cases hretry :
      seekSequence lines chunk.old_lines idx1 = -1 ∧ chunk.old_lines.getLast? = some ""
  · rw [if_pos hretry] at h
    by_cases hf : seekSequence lines chunk.old_lines.dropLast idx1 = -1
    · rw [if_pos hf] at h; exact absurd h (by simp)
    · rw [if_neg hf] at h
      obtain ⟨hne2, k, hk, hik, hkb, hocc, hton⟩ := seekSequence_ne_neg hf
      rw [hton] at h
      simp only [Except.ok.injEq, Prod.mk.injEq] at h
      obtain ⟨hr, hidx⟩ := h
      subst hr; subst hidx
      have hpos : 0 < chunk.old_lines.dropLast.length := List.length_pos.mpr hne2
      refine ⟨hik, hpos, rfl, hkb, ?_⟩
      intro heq
      have hnewlast : chunk.new_lines.getLast? = some "" := heq ▸ hretry.2
      rw [if_pos hnewlast]
      rw [← heq]
      exact hocc
  · rw [if_neg hretry] at h
    by_cases hf : seekSequence lines chunk.old_lines idx1 = -1
    · rw [if_pos hf] at h; exact absurd h (by simp)
    · rw [if_neg hf] at h
      obtain ⟨hne2, k, hk, hik, hkb, hocc, hton⟩ := seekSequence_ne_neg hf
      rw [hton] at h
      simp only [Except.ok.injEq, Prod.mk.injEq] at h
      obtain ⟨hr, hidx⟩ := h
      subst hr; subst hidx
      have hpos : 0 < chunk.old_lines.length := List.length_pos.mpr hne2
      exact ⟨hik, hpos, rfl, hkb, fun heq => heq ▸ hocc⟩

/-- Everything the downstream proofs need to know about one successful
iteration of the chunk loop. -/
theorem chunkStep_ok {lines : List String} {fp : String} {chunk : UpdateChunk}
    {idx : Nat} {r : Replacement} {idx' : Nat}
    (h : chunkStep lines fp chunk idx = Except.ok (r, idx')) :
    r.1 + r.2.1 ≤ lines.length ∧
    (r.2.1 = 0 → r.1 = lines.length) ∧
    (0 < r.2.1 → idx ≤ r.1) ∧
    idx ≤ idx' ∧
    (chunk.old_lines ≠ [] →
      0 < r.2.1 ∧ r.1 + r.2.1 = idx' ∧
        (chunk.old_lines = chunk.new_lines → (lines.drop r.1).take r.2.1 = r.2.2)) ∧
    (chunk.old_lines = [] → optTruthy chunk.change_context = false → r.2.1 = 0) := by
  simp only [chunkStep] at h
  by_cases hctx : optTruthy chunk.change_context = true
  · rw [if_pos hctx] at h
    by_cases hseek :
        seekSequence lines [chunk.change_context.getD ""] idx = -1
    · rw [if_pos hseek] at h
      exact absurd h (by simp)
    · rw [if_neg hseek] at h
      obtain ⟨-, k, hk, hik, hkb, -, hton⟩ := seekSequence_ne_neg hseek
      rw [hton] at h
      have h2 : (if chunk.old_lines.isEmpty = true then
            Except.ok ((k, 1, chunk.new_lines), k)
          else matchStep lines fp chunk k) = Except.ok (r, idx') := h
      by_cases hold : chunk.old_lines.isEmpty = true
      · have holdnil : chunk.old_lines = [] := by
          cases ho : chunk.old_lines with
          | nil => rfl
          | cons a t => rw [ho] at hold; simp [List.isEmpty] at hold
        rw [if_pos hold] at h2
        simp only [Except.ok.injEq, Prod.mk.injEq] at h2
        obtain ⟨hr, hidx⟩ := h2
        subst hr; subst hidx
        simp only [List.length_singleton] at hkb
        refine ⟨by show k + 1 ≤ lines.length; omega, by simp, fun _ => hik, hik, ?_, ?_⟩
        · intro hne; exact absurd holdnil hne
        · intro _ hfalse; rw [hctx] at hfalse; cases hfalse
      · rw [if_neg hold] at h2
        obtain ⟨h1, hb2, hb3, hb4, hb5⟩ := matchStep_ok h2
        have holdne : chunk.old_lines ≠ [] := by
          cases ho : chunk.old_lines with
          | nil => rw [ho] at hold; simp [List.isEmpty] at hold
          | cons a t => simp
        exact ⟨hb4, fun h0 => absurd h0 (by omega), fun _ => le_trans hik h1,
          by omega, fun _ => ⟨hb2, hb3, hb5⟩, fun he => absurd he holdne⟩
  · rw [if_neg hctx] at h
    have h2 : (if chunk.old_lines.isEmpty = true then
          Except.ok ((lines.length, 0, chunk.new_lines), idx)
        else matchStep lines fp chunk idx) = Except.ok (r, idx') := h
    by_cases hold : chunk.old_lines.isEmpty = true
    · have holdnil : chunk.old_lines = [] := by
        cases ho : chunk.old_lines with
        | nil => rfl
        | cons a t => rw [ho] at hold; simp [List.isEmpty] at hold
      rw [if_pos hold] at h2
      simp only [Except.ok.injEq, Prod.mk.injEq] at h2
      obtain ⟨hr, hidx⟩ := h2
      subst hr; subst hidx
      refine ⟨by show lines.length + 0 ≤ lines.length; omega, fun _ => rfl, by simp,
        le_refl idx, ?_, fun _ _ => rfl⟩
      intro hne; exact absurd holdnil hne
    · rw [if_neg hold] at h2
      obtain ⟨h1, hb2, hb3, hb4, hb5⟩ := matchStep_ok h2
      have holdne : chunk.old_lines ≠ [] := by
        cases ho : chunk.old_lines with
        | nil => rw [ho] at hold; simp [List.isEmpty] at hold
        | cons a t => simp
      exact ⟨hb4, fun h0 => absurd h0 (by omega), fun _ => h1, by omega,
        fun _ => ⟨hb2, hb3, hb5⟩, fun he => absurd he holdne⟩

/-- Inversion of one successful iteration of the chunk loop. -/
theorem computeReplsGo_ok_cons {lines : List String} {fp : String}
    {chunk : UpdateChunk} {rest : List UpdateChunk} {idx : Nat}
    {rs : List Replacement}
    (h : computeReplsGo lines fp (chunk :: rest) idx = Except.ok rs) :
    ∃ r idx' rs', chunkStep lines fp chunk idx = Except.ok (r, idx') ∧
      computeReplsGo lines fp rest idx' = Except.ok rs' ∧ rs = r :: rs' := by
  rw [computeReplsGo] at h
  cases hs : chunkStep lines fp chunk idx with
  | error e => rw [hs] at h; exact absurd h (by simp)
  | ok p =>
    obtain ⟨r, idx'⟩ := p
    rw [hs] at h
    have h2 : Except.map (fun rs => r :: rs) (computeReplsGo lines fp rest idx') =
        Except.ok rs := h
    cases hr : computeReplsGo lines fp rest idx' with
    | error e => rw [hr] at h2; simp [Except.map] at h2
    | ok rs' =>
      rw [hr] at h2
      simp only [Except.map, Except.ok.injEq] at h2
      exact ⟨r, idx', rs', rfl, hr, h2.symm⟩

/-- Span facts for every replacement emitted by the chunk loop: the span
stays within the file, zero-length spans sit exactly at end-of-file, and
positive-length spans start at or after the cursor the loop started from. -/
theorem computeReplsGo_bounds (lines : List String) (fp : String) :
    ∀ (chunks : List UpdateChunk) (idx : Nat) (rs : List Replacement),
      computeReplsGo lines fp chunks idx = Except.ok rs →
      ∀ r ∈ rs, r.1 + r.2.1 ≤ lines.length ∧ (r.2.1 = 0 → r.1 = lines.length) ∧
        (0 < r.2.1 → idx ≤ r.1) := by
  intro chunks
  induction chunks with
  | nil =>
    intro idx rs h r hr
    rw [computeReplsGo] at h
    simp only [Except.ok.injEq] at h
    subst h
    cases hr
  | cons chunk rest ih =>
    intro idx rs h r hr
    obtain ⟨r0, idx', rs', hstep, hrest, hcons⟩ := computeReplsGo_ok_cons h
    subst hcons
    obtain ⟨ha, hb, hc, hd, -, -⟩ := chunkStep_ok hstep
    rcases List.mem_cons.mp hr with rfl | hmem
    · exact ⟨ha, hb, hc⟩
    · obtain ⟨ha', hb', hc'⟩ := ih idx' rs' hrest r hmem
      exact ⟨ha', hb', fun hp => le_trans hd (hc' hp)⟩

/-- The with-context insertion branch of the chunk loop. -/
theorem chunkStep_empty_old_at (lines : List String) (fp : String)
    (chunk : UpdateChunk) (idx : Nat) (hold : chunk.old_lines = [])
    (c : String) (hc : chunk.change_context = some c) (hcne : c ≠ "")
    (k : Nat) (hk : seekSequence lines [c] idx = (k : Int)) :
    chunkStep lines fp chunk idx = Except.ok ((k, 1, chunk.new_lines), k) := by
  have htruthy : optTruthy chunk.change_context = true := by
    rw [hc]; simpa [optTruthy] using hcne
  have hgetD : chunk.change_context.getD "" = c := by rw [hc]; rfl
  simp only [chunkStep, htruthy, if_true, hgetD, hk]
  have hne : ((k : Int) = -1) = False := by
    simp only [eq_iff_iff, iff_false]
    omega
  simp only [hne, if_false, Int.toNat_natCast]
  have hemp : chunk.old_lines.isEmpty = true := by rw [hold]; rfl
  simp only [hemp, if_true]

/-- The no-context insertion branch of the chunk loop: a pure append. -/
theorem chunkStep_empty_old_none (lines : List String) (fp : String)
    (chunk : UpdateChunk) (idx : Nat) (hold : chunk.old_lines = [])
    (hfalsy : optTruthy chunk.change_context = false) :
    chunkStep lines fp chunk idx =
      Except.ok ((lines.length, 0, chunk.new_lines), idx) := by
  have hcond : (optTruthy chunk.change_context = true) = False := by
    simp [hfalsy]
  simp only [chunkStep, hcond, if_false]
  have hemp : chunk.old_lines.isEmpty = true := by rw [hold]; rfl
  simp only [hemp, if_true]

/-- C1: for an update chunk with empty `old_lines`, the chunk loop of
`computeReplacements` emits exactly one replacement: with a (truthy) change
context found at index `k` by the sequence matcher searching from the
current cursor, the replacement is `(k, 1, new_lines)` (replacing that one
context line) and the cursor stays at `k`; with no (truthy) change context,
the replacement is `(originalLines.length, 0, new_lines)` (a pure append at
end of file) regardless of the file's content.  On a single-chunk list,
`computeReplacements` accordingly returns exactly that one replacement. -/
theorem chunkStep_empty_old_spec (lines : List String) (fp : String)
    (chunk : UpdateChunk) (idx : Nat) (hold : chunk.old_lines = []) :
    (∀ c : String, chunk.change_context = some c → c ≠ "" →
      ∀ k : Nat, seekSequence lines [c] idx = (k : Int) →
        chunkStep lines fp chunk idx = Except.ok ((k, 1, chunk.new_lines), k)) ∧
    (optTruthy chunk.change_context = false →
      chunkStep lines fp chunk idx =
        Except.ok ((lines.length, 0, chunk.new_lines), idx)) ∧
    (∀ c : String, chunk.change_context = some c → c ≠ "" →
      ∀ k : Nat, seekSequence lines [c] 0 = (k : Int) →
        computeReplacements lines fp [chunk] =
          Except.ok [(k, 1, chunk.new_lines)]) ∧
    (optTruthy chunk.change_context = false →
      computeReplacements lines fp [chunk] =
        Except.ok [(lines.length, 0, chunk.new_lines)]) := by
  have hsingle : ∀ (r : Replacement) (idx' : Nat),
      chunkStep lines fp chunk 0 = Except.ok (r, idx') →
      computeReplacements lines fp [chunk] = Except.ok [r] := by
    intro r idx' hs
    have hgo : computeReplsGo lines fp [chunk] 0 = Except.ok [r] := by
      rw [computeReplsGo, hs]
      rfl
    rw [computeReplacements, hgo]
    rfl
  refine ⟨?_, ?_, ?_, ?_⟩
  · exact fun c hc hcne k hk =>
      chunkStep_empty_old_at lines fp chunk idx hold c hc hcne k hk
  · exact fun hfalsy =>
      chunkStep_empty_old_none lines fp chunk idx hold hfalsy
  · exact fun c hc hcne k hk => hsingle _ _
      (chunkStep_empty_old_at lines fp chunk 0 hold c hc hcne k hk)
  · exact fun hfalsy => hsingle _ _
      (chunkStep_empty_old_none lines fp chunk 0 hold hfalsy)

/-- Witness for `chunkStep_empty_old_spec`: a concrete empty-`old_lines`
chunk with a matched context replaces that context line, and one without a
context appends at end of file. -/
theorem chunkStep_empty_old_spec_witness :
    chunkStep ["a"] "f" ⟨[], ["x"], some "a", false⟩ 0 =
        Except.ok ((0, 1, ["x"]), 0) ∧
      chunkStep ["a"] "f" ⟨[], ["y"], none, false⟩ 0 =
        Except.ok ((1, 0, ["y"]), 0) ∧
      computeReplacements ["a"] "f" [⟨[], ["x"], some "a", false⟩] =
        Except.ok [(0, 1, ["x"])] ∧
      computeReplacements ["a"] "f" [⟨[], ["y"], none, false⟩] =
        Except.ok [(1, 0, ["y"])] := by
  refine ⟨?_, ?_, ?_, ?_⟩
  · exact (chunkStep_empty_old_spec ["a"] "f" ⟨[], ["x"], some "a", false⟩ 0 rfl).1
      "a" rfl (by decide) 0 rfl
  · exact (chunkStep_empty_old_spec ["a"] "f" ⟨[], ["y"], none, false⟩ 0 rfl).2.1 rfl
  · exact (chunkStep_empty_old_spec ["a"] "f" ⟨[], ["x"], some "a", false⟩ 0
      rfl).2.2.1 "a" rfl (by decide) 0 rfl
  · exact (chunkStep_empty_old_spec ["a"] "f" ⟨[], ["y"], none, false⟩ 0
      rfl).2.2.2 rfl

/-- When no chunk combines empty `old_lines` with a truthy change context,
the emitted positive-length spans chain forward in emission order. -/
theorem computeReplsGo_chain (lines : List String) (fp : String) :
    ∀ (chunks : List UpdateChunk) (idx : Nat) (rs : List Replacement),
      (∀ ch ∈ chunks, ch.old_lines = [] → optTruthy ch.change_context = false) →
      computeReplsGo lines fp chunks idx = Except.ok rs →
      rs.Pairwise spanChain := by
  intro chunks
  induction chunks with
  | nil =>
    intro idx rs _ h
    rw [computeReplsGo] at h
    simp only [Except.ok.injEq] at h
    subst h
    exact List.Pairwise.nil
  | cons chunk rest ih =>
    intro idx rs hch h
    obtain ⟨r, idx', rs', hstep, hrest, rfl⟩ := computeReplsGo_ok_cons h
    refine List.Pairwise.cons ?_ (ih idx' rs' (fun c hc => hch c (List.mem_cons_of_mem _ hc)) hrest)
    intro r' hr' hpos hpos'
    obtain ⟨-, -, -, -, hE, hF⟩ := chunkStep_ok hstep
    by_cases holdnil : chunk.old_lines = []
    · have h0 := hF holdnil (hch chunk (List.mem_cons_self _ _) holdnil)
      omega
    · obtain ⟨-, hend, -⟩ := hE holdnil
      have hb := (computeReplsGo_bounds lines fp rest idx' rs' hrest r' hr').2.2 hpos'
      omega

/-- Non-overlap of a replacement list follows from the per-element span
facts plus pairwise disjointness of the positive-length spans. -/
theorem nonOverlap_of_facts {rs : List Replacement} {len : Nat}
    (hmem : ∀ r ∈ rs, r.1 + r.2.1 ≤ len ∧ (r.2.1 = 0 → r.1 = len))
    (hpw : rs.Pairwise spanDisjoint) :
    nonOverlap rs := by
  intro i j hij hle
  have hmi := hmem (rs.get i) (List.get_mem rs i.1 i.2)
  have hmj := hmem (rs.get j) (List.get_mem rs j.1 j.2)
  rcases Nat.eq_zero_or_pos (rs.get i).2.1 with hz | hpos
  · have hsi := hmi.2 hz
    omega
  · rcases Nat.eq_zero_or_pos (rs.get j).2.1 with hz' | hpos'
    · have hsj := hmj.2 hz'
      have := hmi.1
      omega
    · have hpg := List.pairwise_iff_get.mp hpw
      rcases Fin.lt_or_lt_of_ne hij with hlt | hlt
      · rcases hpg i j hlt hpos hpos' with hd | hd
        · exact hd
        · omega
      · rcases hpg j i hlt hpos' hpos with hd | hd
        · omega
        · exact hd

/-- C5 counterexample: a chunk with empty `old_lines` and a matched change
context does not advance the cursor past the context line, so the next
chunk can match the very same line; `computeReplacements` then succeeds
with two overlapping spans `(0, 1, _)` and `(0, 1, _)`. -/
theorem computeReplacements_overlap_cex :
    computeReplacements ["a"] "f"
        [⟨[], ["x"], some "a", false⟩, ⟨["a"], ["y"], none, false⟩] =
      Except.ok [(0, 1, ["x"]), (0, 1, ["y"])] ∧
    ¬ nonOverlap [(0, 1, ["x"]), (0, 1, ["y"])] := by
  exact ⟨rfl, by decide⟩

/-- C5 (amended): for every chunk list in which no chunk combines empty
`old_lines` with a (truthy) change context, when `computeReplacements`
succeeds the emitted replacement spans are pairwise non-overlapping: for any
two distinct replacements `(s1, l1, _)` and `(s2, l2, _)` with `s1 ≤ s2`,
`s1 + l1 ≤ s2`. -/
theorem computeReplacements_nonOverlap (lines : List String) (fp : String)
    (chunks : List UpdateChunk) (rs : List Replacement)
    (hch : ∀ ch ∈ chunks, ch.old_lines = [] → optTruthy ch.change_context = false)
    (hok : computeReplacements lines fp chunks = Except.ok rs) :
    nonOverlap rs := by
  unfold computeReplacements at hok
  cases hr : computeReplsGo lines fp chunks 0 with
  | error e => rw [hr] at hok; simp [Except.map] at hok
  | ok rs0 =>
    rw [hr] at hok
    simp only [Except.map, Except.ok.injEq] at hok
    subst hok
    have hperm := List.perm_insertionSort
      (fun a b : Replacement => a.1 ≤ b.1) rs0
    have hbounds := computeReplsGo_bounds lines fp chunks 0 rs0 hr
    have hchain := computeReplsGo_chain lines fp chunks 0 rs0 hch hr
    have hdisj : rs0.Pairwise spanDisjoint :=
      hchain.imp (fun h hp hp' => Or.inl (h hp hp'))
    have hsym : ∀ {x y : Replacement}, spanDisjoint x y → spanDisjoint y x := by
      intro x y hxy hp hp'
      rcases hxy hp' hp with h | h
      · exact Or.inr h
      · exact Or.inl h
    have hdisj' := (List.Perm.pairwise_iff hsym hperm).mpr hdisj
    have hmem : ∀ r ∈ List.insertionSort (fun a b : Replacement => a.1 ≤ b.1) rs0,
        r.1 + r.2.1 ≤ lines.length ∧ (r.2.1 = 0 → r.1 = lines.length) := by
      intro r hrmem
      have hfacts := hbounds r (hperm.mem_iff.mp hrmem)
      exact ⟨hfacts.1, hfacts.2.1⟩
    exact nonOverlap_of_facts hmem hdisj'

/-- Witness for `computeReplacements_nonOverlap`: two ordinary chunks
matched forward produce disjoint spans. -/
theorem computeReplacements_nonOverlap_witness :
    nonOverlap [(0, 1, ["B"]), (2, 1, ["D"])] :=
  computeReplacements_nonOverlap ["a", "b", "c"] "f"
    [⟨["a"], ["B"], none, false⟩, ⟨["c"], ["D"], none, false⟩]
    [(0, 1, ["B"]), (2, 1, ["D"])] (by decide) rfl

/-! ## Identity replacements and the no-op round trip -/

/-- Splicing a span with its own current content leaves the list
unchanged. -/
theorem spliceAt_self {L : List String} {s l : Nat} {seg : List String}
    (hbound : s + l ≤ L.length) (hslice : (L.drop s).take l = seg) :
    spliceAt L s l seg = L := by
  unfold spliceAt
  have hs : min s L.length = s := Nat.min_eq_left (by omega)
  rw [hs, ← hslice]
  show L.take s ++ (L.drop s).take l ++ L.drop (s + l) = L
  have h1 : L.drop (s + l) = (L.drop s).drop l := (List.drop_drop l s L).symm
  rw [h1, List.append_assoc, List.take_append_drop, List.take_append_drop]

/-- Applying replacements that each reproduce the lines they cover is the
identity. -/
theorem applyReplacements_self {L : List String} {rs : List Replacement}
    (h : ∀ r ∈ rs, r.1 + r.2.1 ≤ L.length ∧ (L.drop r.1).take r.2.1 = r.2.2) :
    applyReplacements L rs = L := by
  induction rs with
  | nil => rfl
  | cons r rest ih =>
    have htail : applyReplacements L rest = L :=
      ih (fun r' hr' => h r' (List.mem_cons_of_mem _ hr'))
    have hhead := h r (List.mem_cons_self _ _)
    show spliceAt (applyReplacements L rest) r.1 r.2.1 r.2.2 = L
    rw [htail]
    exact spliceAt_self hhead.1 hhead.2

/-- When every chunk is an identity chunk with non-empty `old_lines` equal
to `new_lines`, every emitted replacement reproduces the lines it covers. -/
theorem computeReplsGo_identity (lines : List String) (fp : String) :
    ∀ (chunks : List UpdateChunk) (idx : Nat) (rs : List Replacement),
      (∀ ch ∈ chunks, ch.old_lines ≠ [] ∧ ch.old_lines = ch.new_lines) →
      computeReplsGo lines fp chunks idx = Except.ok rs →
      ∀ r ∈ rs, r.1 + r.2.1 ≤ lines.length ∧
        (lines.drop r.1).take r.2.1 = r.2.2 := by
  intro chunks
  induction chunks with
  | nil =>
    intro idx rs _ h r hr
    rw [computeReplsGo] at h
    simp only [Except.ok.injEq] at h
    subst h
    cases hr
  | cons chunk rest ih =>
    intro idx rs hch h r hr
    obtain ⟨r0, idx', rs', hstep, hrest, hcons⟩ := computeReplsGo_ok_cons h
    subst hcons
    rcases List.mem_cons.mp hr with rfl | hmem
    · obtain ⟨hne, heq⟩ := hch chunk (List.mem_cons_self _ _)
      obtain ⟨ha, -, -, -, hE, -⟩ := chunkStep_ok hstep
      exact ⟨ha, (hE hne).2.2 heq⟩
    · exact ih idx' rs' (fun c hc => hch c (List.mem_cons_of_mem _ hc)) hrest r hmem

/-- C4 counterexample: an Update whose single chunk has `old_lines` equal to
`new_lines` (and which matches) is not byte-identical on a file without a
trailing newline: the derived content gains a newline. -/
theorem updateNoOp_cex :
    deriveNewContents "a" "f" [⟨["a"], ["a"], none, false⟩] = Except.ok "a\n" ∧
      ("a\n" : String) ≠ "a" :=
  ⟨rfl, by decide⟩

/-- C4 (amended): applying an Update hunk whose every chunk has non-empty
`old_lines` equal to `new_lines` (and whose chunks all match, i.e. the
computation succeeds) yields content byte-identical to the original,
provided the original content is a fixed point of the trailing-newline
normalization (it is empty or ends in exactly one newline).  Without that
proviso the result is the normalization of the original. -/
theorem updateNoOp_amended (content fp : String) (chunks : List UpdateChunk)
    (out : String)
    (hch : ∀ ch ∈ chunks, ch.old_lines ≠ [] ∧ ch.old_lines = ch.new_lines)
    (hfix : normalizeContent content = content)
    (hok : deriveNewContents content fp chunks = Except.ok out) :
    out = content := by
  unfold deriveNewContents at hok
  unfold computeReplacements at hok
  have hok2 : Except.map (fun repls => joinLines (normalizeEnd
        (applyReplacements (dropTrailingEmpty (splitLines content)) repls)))
      (Except.map (List.insertionSort fun a b => a.1 ≤ b.1)
        (computeReplsGo (dropTrailingEmpty (splitLines content)) fp chunks 0)) =
      Except.ok out := hok
  clear hok
  cases hr : computeReplsGo (dropTrailingEmpty (splitLines content)) fp chunks 0 with
  | error e => rw [hr] at hok2; simp [Except.map] at hok2
  | ok rs0 =>
    rw [hr] at hok2
    simp only [Except.map, Except.ok.injEq] at hok2
    have hident := computeReplsGo_identity (dropTrailingEmpty (splitLines content))
      fp chunks 0 rs0 hch hr
    have hperm := List.perm_insertionSort
      (fun a b : Replacement => a.1 ≤ b.1) rs0
    have happ : applyReplacements (dropTrailingEmpty (splitLines content))
        (List.insertionSort (fun a b => a.1 ≤ b.1) rs0) =
        dropTrailingEmpty (splitLines content) :=
      applyReplacements_self (fun r hrm => hident r (hperm.mem_iff.mp hrm))
    rw [happ] at hok2
    rw [← hok2]
    exact hfix

/-- Witness for `updateNoOp_amended`: on `"a\n"`, the identity chunk
`old = new = ["a"]` round-trips to exactly `"a\n"`. -/
theorem updateNoOp_amended_witness :
    normalizeContent "a\n" = "a\n" ∧
      deriveNewContents "a\n" "f" [⟨["a"], ["a"], none, false⟩] =
        Except.ok "a\n" ∧
      ("a\n" : String) = "a\n" :=
  ⟨rfl, rfl, updateNoOp_amended "a\n" "f" [⟨["a"], ["a"], none, false⟩] "a\n"
    (by decide) rfl rfl⟩

/-! ## Trailing-newline behaviour of derived contents -/

theorem endsWithNL_append_nl (x : String) : endsWithNL (x ++ "\n") = true := by
  unfold endsWithNL
  have hd : (x ++ "\n").data = x.data ++ ['\n'] := by
    cases x with
    | mk d => rfl
  rw [hd, List.getLast?_concat]
  decide

theorem endsWithNL_append_of (x y : String) (hy : endsWithNL y = true) :
    endsWithNL (x ++ y) = true := by
  unfold endsWithNL at *
  have hd : (x ++ y).data = x.data ++ y.data := by
    cases x with
    | mk d =>
      cases y with
      | mk d2 => rfl
  rw [hd]
  have hyne : y.data ≠ [] := by
    intro h0
    rw [h0] at hy
    simp [List.getLast?] at hy
  rw [List.getLast?_append_of_ne_nil _ hyne]
  exact hy

/-- Joining a nonempty line array whose last element is empty produces the
empty string (when the array is just `[""]`) or a string ending in a
newline. -/
theorem joinLines_last_empty :
    ∀ (ls : List String), ls ≠ [] → ls.getLast? = some "" →
      joinLines ls = "" ∨ endsWithNL (joinLines ls) = true := by
  intro ls
  induction ls with
  | nil => intro h; exact absurd rfl h
  | cons a t ih =>
    intro _ hlast
    cases t with
    | nil =>
      have ha : a = "" := by simpa using hlast
      subst ha
      exact Or.inl rfl
    | cons b t2 =>
      have hlast' : (b :: t2).getLast? = some "" := by
        rw [List.getLast?_cons_cons] at hlast
        exact hlast
      rcases ih (by simp) hlast' with h0 | h1
      · right
        show endsWithNL (a ++ "\n" ++ joinLines (b :: t2)) = true
        rw [h0]
        have hemp : a ++ "\n" ++ "" = a ++ "\n" := by
          cases a with
          | mk d =>
            show String.mk ((d ++ ['\n']) ++ []) = String.mk (d ++ ['\n'])
            rw [List.append_nil]
        rw [hemp]
        exact endsWithNL_append_nl a
      · right
        show endsWithNL (a ++ "\n" ++ joinLines (b :: t2)) = true
        exact endsWithNL_append_of _ _ h1

/-- The line array produced by `normalizeEnd` is nonempty and ends with an
empty line. -/
theorem normalizeEnd_spec (ls : List String) :
    normalizeEnd ls ≠ [] ∧ (normalizeEnd ls).getLast? = some "" := by
  unfold normalizeEnd
  by_cases hc : (ls.isEmpty || ls.getLast? != some "") = true
  · rw [if_pos hc]
    exact ⟨by simp, List.getLast?_concat ls⟩
  · rw [if_neg hc]
    simp only [Bool.or_eq_true, not_or, Bool.not_eq_true] at hc
    obtain ⟨h1, h2⟩ := hc
    constructor
    · intro h0
      rw [h0] at h1
      simp at h1
    · simpa using h2

/-- C2 (amended): whatever content `deriveNewContents` produces is either
empty or ends with at least one trailing newline (it need not be exactly
one: extra trailing blank lines of the original or of `new_lines` survive
into the output). -/
theorem deriveNewContents_trailing (content fp : String)
    (chunks : List UpdateChunk) (out : String)
    (hok : deriveNewContents content fp chunks = Except.ok out) :
    out = "" ∨ endsWithNL out = true := by
  unfold deriveNewContents computeReplacements at hok
  have hok2 : Except.map (fun repls => joinLines (normalizeEnd
        (applyReplacements (dropTrailingEmpty (splitLines content)) repls)))
      (Except.map (List.insertionSort fun a b => a.1 ≤ b.1)
        (computeReplsGo (dropTrailingEmpty (splitLines content)) fp chunks 0)) =
      Except.ok out := hok
  clear hok
  cases hr : computeReplsGo (dropTrailingEmpty (splitLines content)) fp chunks 0 with
  | error e => rw [hr] at hok2; simp [Except.map] at hok2
  | ok rs0 =>
    rw [hr] at hok2
    simp only [Except.map, Except.ok.injEq] at hok2
    rw [← hok2]
    have hs := normalizeEnd_spec
      (applyReplacements (dropTrailingEmpty (splitLines content))
        (List.insertionSort (fun a b => a.1 ≤ b.1) rs0))
    exact joinLines_last_empty _ hs.1 hs.2

/-- Witness for `deriveNewContents_trailing` at a concrete input. -/
theorem deriveNewContents_trailing_witness :
    deriveNewContents "ab" "f" [] = Except.ok "ab\n" ∧
      ("ab\n" = "" ∨ endsWithNL "ab\n" = true) :=
  ⟨rfl, deriveNewContents_trailing "ab" "f" [] "ab\n" rfl⟩

/-- C2 counterexample: only one trailing empty line is dropped when the
original is split, so original content with three trailing newlines derives
(under the empty chunk list, on which `computeReplacements` succeeds) to
content with two trailing newlines, not exactly one. -/
theorem trailingNewline_cex :
    deriveNewContents "a\n\n\n" "f" [] = Except.ok "a\n\n" ∧
      endsWithOneNL "a\n\n" = false :=
  ⟨rfl, by decide⟩

/-! ## The sequence-matcher contract -/

/-- C3: `seekSequence` returns the lowest index `≥ start` at which the full
pattern occurs as a contiguous element-wise-equal subsequence of the
haystack, and returns `-1` exactly when the pattern is empty or no such
index exists within bounds; in particular searching an empty haystack or
for an empty pattern is not-found, and
`seek(["a","b","a","b"], ["a","b"], 1) = 2`. -/
theorem seekSequence_spec :
    (∀ (lines pattern : List String) (start k : Nat),
      seekSequence lines pattern start = (k : Int) →
        start ≤ k ∧ occursAt lines pattern k ∧ k + pattern.length ≤ lines.length ∧
          ∀ j, start ≤ j → j < k → ¬ occursAt lines pattern j) ∧
    (∀ (lines pattern : List String) (start : Nat),
      seekSequence lines pattern start = -1 ↔
        pattern = [] ∨ ∀ j, start ≤ j → ¬ occursAt lines pattern j) ∧
    (∀ pattern : List String, seekSequence [] pattern 0 = -1) ∧
    (∀ lines : List String, seekSequence lines [] 0 = -1) ∧
    seekSequence ["a", "b", "a", "b"] ["a", "b"] 1 = 2 := by
  have main : ∀ (lines pattern : List String) (start k : Nat),
      seekSequence lines pattern start = (k : Int) →
        start ≤ k ∧ occursAt lines pattern k ∧ k + pattern.length ≤ lines.length ∧
          ∀ j, start ≤ j → j < k → ¬ occursAt lines pattern j := by
    intro lines pattern start k hk
    unfold seekSequence at hk
    by_cases hp : pattern.isEmpty = true
    · rw [if_pos hp] at hk
      exact absurd hk (by simp)
    · rw [if_neg hp] at hk
      obtain ⟨h1, h2, h3, h4⟩ := seekFrom_eq_coe hk
      exact ⟨h1, h3, h2, h4⟩
  refine ⟨main, ?_, ?_, ?_, rfl⟩
  · intro lines pattern start
    constructor
    · intro h
      by_cases hp : pattern = []
      · exact Or.inl hp
      · refine Or.inr ?_
        unfold seekSequence at h
        have hp' : pattern.isEmpty = false := by
          cases pattern with
          | nil => exact absurd rfl hp
          | cons a t => rfl
        rw [hp', if_neg (by simp)] at h
        exact seekFrom_eq_neg hp h
    · intro h
      rcases seekSequence_cases lines pattern start with hc | ⟨k, hk, hsk, -, hocc⟩
      · exact hc
      · rcases h with hp | hno
        · rw [hp] at hk
          simp [seekSequence] at hk
        · exact absurd hocc (hno k hsk)
  · intro pattern
    rcases seekSequence_cases [] pattern 0 with hc | ⟨k, hk, -, hkb, hocc⟩
    · exact hc
    · exfalso
      have hpne : pattern ≠ [] := (seekSequence_ne_neg (by rw [hk]; simp)).1
      have := occursAt_bound hpne hocc
      simp only [List.length_nil] at this
      have hp : 0 < pattern.length := List.length_pos.mpr hpne
      omega
  · intro lines
    simp [seekSequence]

/-- Witness for `seekSequence_spec`: the returned index `2` in the example
is at or after the start and carries a genuine occurrence. -/
theorem seekSequence_spec_witness :
    seekSequence ["a", "b", "a", "b"] ["a", "b"] 1 = ((2 : Nat) : Int) ∧
      1 ≤ 2 ∧ occursAt ["a", "b", "a", "b"] ["a", "b"] 2 := by
  have h2 : seekSequence ["a", "b", "a", "b"] ["a", "b"] 1 = ((2 : Nat) : Int) := rfl
  obtain ⟨ha, hb, -, -⟩ := seekSequence_spec.1 ["a", "b", "a", "b"] ["a", "b"] 1 2 h2
  exact ⟨h2, ha, hb⟩

/-! ## Parsing behaviour at the end-of-file marker -/

/-- C6 (evaluating the code at the failing input): a chunk body containing
the literal line `*** End of File` stops chunk parsing at that line — but
the resulting chunk has `is_end_of_file = false`, not `true` as specified:
the inner `changeLine === "*** End of File"` check is unreachable because
the chunk-body loop already exits on every line starting with `***`. -/
theorem endOfFileMarker_not_flagged :
    parseUpdateChunksGo ["@@ ctx", "-a", "+b", "*** End of File", "x"] 0 =
      ([⟨["a"], ["b"], some "ctx", false⟩], 3) ∧
    parsePatch ("*** Begin Patch\n*** Update File: f\n@@ ctx\n-a\n+b\n"
        ++ "*** End of File\n*** End Patch") =
      Except.ok [Hunk.update "f" none [⟨["a"], ["b"], some "ctx", false⟩]] :=
  ⟨rfl, rfl⟩

/-! ## Add-hunk write behaviour -/

/-- Reading back a just-written path yields the written contents. -/
theorem Fs.read_write (fs : Fs) (p c : String) :
    Fs.read (Fs.write fs p c) p = some c := by
  induction fs with
  | nil => simp [Fs.read, Fs.write]
  | cons e rest ih =>
    obtain ⟨q, d⟩ := e
    by_cases hq : q = p
    · simp [Fs.write, hq, Fs.read]
    · simp [Fs.write, hq, Fs.read, ih]

/-- C7 counterexample: applying an Add hunk with stored contents `"a"`
writes exactly `"a"` to disk, not `"a"` with a newline appended. -/
theorem addWrite_cex :
    Fs.read (applyHunksToFiles [] [Hunk.add "a.txt" "a"]).1 "a.txt" = some "a" ∧
      some "a" ≠ some ("a" ++ "\n") :=
  ⟨rfl, by decide⟩

/-- C7 (amended): for an Add hunk, the file content written to disk equals
the hunk's stored contents verbatim — no trailing newline is appended on
write (Add bypasses the Update trailing-newline normalization). -/
theorem addWrite_amended (fs : Fs) (p c : String) :
    applyHunksToFiles fs [Hunk.add p c] =
      (Fs.write fs p c, { added := [p], modified := [], deleted := [] }, none) ∧
    Fs.read (Fs.write fs p c) p = some c :=
  ⟨rfl, Fs.read_write fs p c⟩

/-! ## The parsePatch error contract -/

/-- C8: `parsePatch` fails exactly when the `*** Begin Patch` and
`*** End Patch` marker lines (first occurrence each, by trimmed equality)
are not both present, or the first Begin marker is at or after the first
End marker by line index; every other input yields a hunk list without
raising. -/
theorem parsePatch_error_iff (text : String) :
    (∃ e, parsePatch text = Except.error e) ↔
      ((splitLines text).findIdx? (fun line => strTrim line == "*** Begin Patch")
          = none ∨
       (splitLines text).findIdx? (fun line => strTrim line == "*** End Patch")
          = none ∨
       ∃ bi ei : Nat,
         (splitLines text).findIdx? (fun line => strTrim line == "*** Begin Patch")
            = some bi ∧
         (splitLines text).findIdx? (fun line => strTrim line == "*** End Patch")
            = some ei ∧
         ei ≤ bi) := by
  have hexp : parsePatch text =
      (if findMarkerIdx (splitLines text) "*** Begin Patch" = -1 ∨
          findMarkerIdx (splitLines text) "*** End Patch" = -1 ∨
          findMarkerIdx (splitLines text) "*** Begin Patch" ≥
            findMarkerIdx (splitLines text) "*** End Patch" then
        Except.error "Invalid patch format: missing Begin/End markers"
      else
        Except.ok (parseHunksGo (splitLines text)
          (findMarkerIdx (splitLines text) "*** End Patch").toNat
          ((findMarkerIdx (splitLines text) "*** Begin Patch").toNat + 1))) := rfl
  rw [hexp]
  cases hb : (splitLines text).findIdx? (fun line => strTrim line == "*** Begin Patch") with
  | none =>
    have hbv : findMarkerIdx (splitLines text) "*** Begin Patch" = -1 := by
      unfold findMarkerIdx; rw [hb]
    rw [hbv, if_pos (Or.inl rfl)]
    exact ⟨fun _ => Or.inl rfl, fun _ => ⟨_, rfl⟩⟩
  | some bi =>
    have hbv : findMarkerIdx (splitLines text) "*** Begin Patch" = (bi : Int) := by
      unfold findMarkerIdx; rw [hb]
    cases he : (splitLines text).findIdx? (fun line => strTrim line == "*** End Patch") with
    | none =>
      have hev : findMarkerIdx (splitLines text) "*** End Patch" = -1 := by
        unfold findMarkerIdx; rw [he]
      rw [hbv, hev, if_pos (Or.inr (Or.inl rfl))]
      exact ⟨fun _ => Or.inr (Or.inl rfl), fun _ => ⟨_, rfl⟩⟩
    | some ei =>
      have hev : findMarkerIdx (splitLines text) "*** End Patch" = (ei : Int) := by
        unfold findMarkerIdx; rw [he]
      rw [hbv, hev]
      by_cases hle : ei ≤ bi
      · rw [if_pos (Or.inr (Or.inr (by omega)))]
        exact ⟨fun _ => Or.inr (Or.inr ⟨bi, ei, rfl, rfl, hle⟩), fun _ => ⟨_, rfl⟩⟩
      · rw [if_neg (by omega)]
        constructor
        · intro hex
          obtain ⟨e, hee⟩ := hex
          cases hee
        · intro hd
          exfalso
          rcases hd with h0 | h0 | ⟨bi', ei', hbi', hei', hle'⟩
          · cases h0
          · cases h0
          · injection hbi' with hbi2
            injection hei' with hei2
            subst hbi2; subst hei2
            exact hle hle'

/-- Witness for `parsePatch_error_iff`: a text with no markers fails. -/
theorem parsePatch_error_iff_witness :
    ∃ e, parsePatch "no markers" = Except.error e :=
  (parsePatch_error_iff "no markers").mpr (Or.inl rfl)

/-! ## Fail-fast, no-rollback hunk application -/

/-- Running a hunk list splits around the first failure: the successful
prefix is committed, the failing hunk's error surfaces, and the suffix is
never applied. -/
theorem runHunks_append_error (bad : Hunk) (post : List Hunk) (e : String) :
    ∀ (pre : List Hunk) (fs : Fs) (ap : AffectedPaths) (fs' : Fs)
      (ap' : AffectedPaths),
      runHunks fs ap pre = (fs', ap', none) →
      applyHunkAcc fs' ap' bad = Except.error e →
      runHunks fs ap (pre ++ bad :: post) = (fs', ap', some e) := by
  intro pre
  induction pre with
  | nil =>
    intro fs ap fs' ap' hpre hbad
    have h1 : (fs, ap, (none : Option String)) = (fs', ap', none) := hpre
    injection h1 with hfs h2
    injection h2 with hap h3
    subst hfs; subst hap
    show (match applyHunkAcc fs ap bad with
      | Except.ok (fs2, ap2) => runHunks fs2 ap2 post
      | Except.error e2 => (fs, ap, some e2)) = (fs, ap, some e)
    rw [hbad]
  | cons h1 rest ih =>
    intro fs ap fs' ap' hpre hbad
    have hpre2 : (match applyHunkAcc fs ap h1 with
      | Except.ok (fs2, ap2) => runHunks fs2 ap2 rest
      | Except.error e2 => (fs, ap, some e2)) = (fs', ap', none) := hpre
    show (match applyHunkAcc fs ap h1 with
      | Except.ok (fs2, ap2) => runHunks fs2 ap2 (rest ++ bad :: post)
      | Except.error e2 => (fs, ap, some e2)) = (fs', ap', some e)
    cases hh : applyHunkAcc fs ap h1 with
    | error e1 =>
      rw [hh] at hpre2
      have h3 : (fs, ap, some e1) = (fs', ap', (none : Option String)) := hpre2
      injection h3 with hfs h4
      injection h4 with hap h5
      cases h5
    | ok p =>
      obtain ⟨fs1, ap1⟩ := p
      rw [hh] at hpre2
      have hpre3 : runHunks fs1 ap1 rest = (fs', ap', none) := hpre2
      exact ih fs1 ap1 fs' ap' hpre3 hbad

/-- C9: `applyHunksToFiles` processes hunks strictly in order; when a hunk
fails, the error surfaces immediately, no later hunk is applied, and the
filesystem effects of every previously succeeded hunk remain committed (no
rollback).  Deleting a nonexistent path is such a failure (`ENOENT`). -/
theorem applyHunksToFiles_failfast (fs fs' : Fs) (ap' : AffectedPaths)
    (pre post : List Hunk) (bad : Hunk) (e : String)
    (hpre : runHunks fs {} pre = (fs', ap', none))
    (hbad : applyHunkAcc fs' ap' bad = Except.error e) :
    applyHunksToFiles fs (pre ++ bad :: post) = (fs', ap', some e) ∧
    ∀ (fs0 : Fs) (ap0 : AffectedPaths) (p : String), Fs.read fs0 p = none →
      applyHunkAcc fs0 ap0 (Hunk.delete p) = Except.error "ENOENT" := by
  constructor
  · have hne : (pre ++ bad :: post).isEmpty = false := by
      cases pre <;> rfl
    rw [applyHunksToFiles, hne]
    show runHunks fs {} (pre ++ bad :: post) = (fs', ap', some e)
    exact runHunks_append_error bad post e pre fs {} fs' ap' hpre hbad
  · intro fs0 ap0 p hnone
    simp only [applyHunkAcc, hnone]

/-- Witness for `applyHunksToFiles_failfast`: delete the same path twice and
then add another file — the first delete commits, the second surfaces
`ENOENT`, and the add never happens. -/
theorem applyHunksToFiles_failfast_witness :
    applyHunksToFiles [("x", "1")]
        [Hunk.delete "x", Hunk.delete "x", Hunk.add "y" "z"] =
      ([], { added := [], modified := [], deleted := ["x"] }, some "ENOENT") :=
  (applyHunksToFiles_failfast [("x", "1")] []
    { added := [], modified := [], deleted := ["x"] }
    [Hunk.delete "x"] [Hunk.add "y" "z"] (Hunk.delete "x") "ENOENT" rfl rfl).1

/-! ## Cosine similarity: the zero-norm guard -/

theorem sum_sq_nonneg (l : List ℚ) : 0 ≤ (l.map (fun x => x * x)).sum := by
  induction l with
  | nil => simp
  | cons x t ih =>
    simp only [List.map_cons, List.sum_cons]
    exact add_nonneg (mul_self_nonneg x) ih

theorem sum_sq_eq_zero_iff (l : List ℚ) :
    (l.map (fun x => x * x)).sum = 0 ↔ ∀ x ∈ l, x = 0 := by
  induction l with
  | nil => simp
  | cons x t ih =>
    simp only [List.map_cons, List.sum_cons, List.mem_cons]
    constructor
    · intro h
      have hx := mul_self_nonneg x
      have ht := sum_sq_nonneg t
      have hx0 : x * x = 0 := by linarith
      have ht0 : (t.map (fun x => x * x)).sum = 0 := by linarith
      intro y hy
      rcases hy with rfl | hy
      · exact mul_self_eq_zero.mp hx0
      · exact ih.mp ht0 y hy
    · intro h
      have hx0 : x = 0 := h x (Or.inl rfl)
      have ht0 : (t.map (fun x => x * x)).sum = 0 :=
        ih.mpr (fun y hy => h y (Or.inr hy))
      rw [hx0, ht0]
      ring

/-- The `normA` accumulator is the starting value plus the sum of squares
of `a`. -/
theorem cosineAccumGo_normA :
    ∀ (a b : List ℚ) (d na nb : ℚ),
      (cosineAccumGo a b (d, na, nb)).2.1 = na + (a.map (fun x => x * x)).sum := by
  intro a
  induction a with
  | nil => intro b d na nb; simp [cosineAccumGo]
  | cons av arest ih =>
    intro b d na nb
    show (cosineAccumGo arest b.tail
        (d + av * b.headD 0, na + av * av, nb + b.headD 0 * b.headD 0)).2.1 = _
    rw [ih]
    simp only [List.map_cons, List.sum_cons]
    ring

/-- The `normB` accumulator is the starting value plus the sum of squares
of the compared prefix of `b` (the first `a.length` elements). -/
theorem cosineAccumGo_normB :
    ∀ (a b : List ℚ) (d na nb : ℚ),
      (cosineAccumGo a b (d, na, nb)).2.2 =
        nb + ((b.take a.length).map (fun x => x * x)).sum := by
  intro a
  induction a with
  | nil => intro b d na nb; simp [cosineAccumGo]
  | cons av arest ih =>
    intro b d na nb
    show (cosineAccumGo arest b.tail
        (d + av * b.headD 0, na + av * av, nb + b.headD 0 * b.headD 0)).2.2 = _
    rw [ih]
    cases b with
    | nil => simp
    | cons b0 brest =>
      simp only [List.headD, List.tail, List.length_cons, List.take_succ_cons,
        List.map_cons, List.sum_cons]
      ring

/-- C10: `cosineSimilarity` (modelled over exact rationals, with `Math.sqrt`
abstracted as any function that does not vanish on positive inputs, and with
`b` at least as long as `a` so that every compared element exists) returns
`0` whenever either vector has zero norm over the compared prefix — in
particular the division branch is never reached with a zero divisor, so the
score for zero vectors is the exact literal `0`. -/
theorem cosineSimilarity_zero_guard (sqrt : ℚ → ℚ)
    (hsqrt : ∀ q : ℚ, 0 < q → sqrt q ≠ 0) (a b : List ℚ)
    (_hlen : a.length ≤ b.length) :
    ((∀ x ∈ a, x = 0) → cosineSimilarity sqrt a b = 0) ∧
    ((∀ x ∈ b.take a.length, x = 0) → cosineSimilarity sqrt a b = 0) ∧
    ((cosineAccumGo a b (0, 0, 0)).2.1 ≠ 0 →
      (cosineAccumGo a b (0, 0, 0)).2.2 ≠ 0 →
      sqrt (cosineAccumGo a b (0, 0, 0)).2.1 *
        sqrt (cosineAccumGo a b (0, 0, 0)).2.2 ≠ 0) := by
  have hA := cosineAccumGo_normA a b 0 0 0
  have hB := cosineAccumGo_normB a b 0 0 0
  refine ⟨?_, ?_, ?_⟩
  · intro hz
    have h0 : (cosineAccumGo a b (0, 0, 0)).2.1 = 0 := by
      rw [hA, (sum_sq_eq_zero_iff a).mpr hz]; ring
    unfold cosineSimilarity
    rw [if_pos (Or.inl h0)]
  · intro hz
    have h0 : (cosineAccumGo a b (0, 0, 0)).2.2 = 0 := by
      rw [hB, (sum_sq_eq_zero_iff (b.take a.length)).mpr hz]; ring
    unfold cosineSimilarity
    rw [if_pos (Or.inr h0)]
  · intro hA0 hB0
    have hApos : 0 < (cosineAccumGo a b (0, 0, 0)).2.1 := by
      rw [hA] at hA0 ⊢
      have := sum_sq_nonneg a
      have h0 : (0 : ℚ) + (a.map (fun x => x * x)).sum =
          (a.map (fun x => x * x)).sum := by ring
      rw [h0] at hA0 ⊢
      exact lt_of_le_of_ne this (Ne.symm hA0)
    have hBpos : 0 < (cosineAccumGo a b (0, 0, 0)).2.2 := by
      rw [hB] at hB0 ⊢
      have := sum_sq_nonneg (b.take a.length)
      have h0 : (0 : ℚ) + ((b.take a.length).map (fun x => x * x)).sum =
          ((b.take a.length).map (fun x => x * x)).sum := by ring
      rw [h0] at hB0 ⊢
      exact lt_of_le_of_ne this (Ne.symm hB0)
    exact mul_ne_zero (hsqrt _ hApos) (hsqrt _ hBpos)

/-- Witness for `cosineSimilarity_zero_guard`: the zero vector scores `0`
against `[3, 4]`. -/
theorem cosineSimilarity_zero_guard_witness :
    cosineSimilarity id [0, 0] [3, 4] = 0 :=
  (cosineSimilarity_zero_guard id (fun _ hq => ne_of_gt hq) [0, 0] [3, 4]
    (by decide)).1 (by decide)

end Chatify
